import Mathlib

/-!
Verification of the mySAPIEnS pipeline scripts.

The definitions below are a shallow embedding of the two scripts
`celltypist/cicero_filtering.py` and `celltypist/core_genes_and_regions.py`.
Scores and classifier weights are modelled as rationals, matrix entries as
integers, region identifiers as strings (or lists of characters where
character-level processing matters).
-/

/-- Distinguished characters used by the scripts, written via code points. -/
def dquote : Char := Char.ofNat 34

def tabChar : Char := Char.ofNat 9

def uscore : Char := Char.ofNat 95

/-- One row of a Cicero coaccessibility csv file: `(Peak1, Peak2, coaccess)`. -/
structure Edge where
  a : String
  b : String
  score : ℚ
deriving DecidableEq, Repr

/-- One iteration of the selection loop of `cicero_filtering.main`
(lines 116-134): an edge row survives the threshold filter
(`df["coaccess"] >= coacc_thresh`) and the core mask
(`Peak1.isin(core) | Peak2.isin(core)`); both endpoints of a surviving
row are added to `selected_peak_ids`. -/
def expandStep (core : Finset String) (t : ℚ) (sel : Finset String) (e : Edge) : Finset String :=
  if e.score ≥ t ∧ (e.a ∈ core ∨ e.b ∈ core) then insert e.a (insert e.b sel) else sel

/-- The whole edge loop: `selected_peak_ids = set(core_peak_ids)` followed by
the per-file update; files are concatenated into one edge list. -/
def expand (core : Finset String) (edges : List Edge) (t : ℚ) : Finset String :=
  edges.foldl (expandStep core t) core

/-- Row filtering of `cicero_filtering.main` (line 161):
`idx = [i for i, pid in enumerate(all_peak_ids) if pid in selected_peak_ids]`;
the enumeration indices of a list are `List.range` of its length. -/
def keptPositions (all_peak_ids : List String) (selected : Finset String) : List ℕ :=
  (List.range all_peak_ids.length).filter (fun i => decide (all_peak_ids[i]! ∈ selected))

/-- Row subsetting `mat_core = mat[idx, :]` (line 178): the reduced matrix is
the rows of `mat` at the positions of `idx`, in that order. -/
def matReduce (mat : List (List ℤ)) (idx : List ℕ) : List (List ℤ) :=
  idx.map (fun i => mat[i]!)

/-- Identifier list `core_peak_ids_ordered = [all_peak_ids[i] for i in idx]`
(line 182). -/
def corePeakIdsOrdered (all_peak_ids : List String) (idx : List ℕ) : List String :=
  idx.map (fun i => all_peak_ids[i]!)

/-- TSS anchor of `core_genes_and_regions.main` (lines 228-231):
`int(row["start"]) if row["strand"] == "+" else int(row["end"])`. -/
def tss_row (start stop : ℤ) (strand : String) : ℤ :=
  if strand = "+" then start else stop

/-- BED interval start of the window loop (line 239):
`start = max(0, tss - 1 - window)`. -/
def bedStart (tss window : ℤ) : ℤ := max 0 (tss - 1 - window)

/-- BED interval end of the window loop (line 240): `end = tss + window`. -/
def bedEnd (tss window : ℤ) : ℤ := tss + window

/-- Contract of `np.argsort(key)` as called with the default sort kind at
line 154 of core_genes_and_regions.py: the result is some permutation of the
indices `0..n-1` along which the key is non-decreasing.  The default kind is
quicksort, which numpy documents as not stable, so the relative order of
equal keys is unspecified; the embedding therefore quantifies over every
admissible output instead of fixing one tie order. -/
def isArgsortOf (key : ℕ → ℚ) (n : ℕ) (p : List ℕ) : Prop :=
  p.Perm (List.range n) ∧ p.Pairwise (fun i j => key i ≤ key j)

/-- The rest of the per-class selection (lines 154-155 of
core_genes_and_regions.py) applied to whatever index order `np.argsort`
returned: `[::-1]` is `reverse` and `[:top_n]` is `take`. -/
def selectTopOf (p : List ℕ) (top_n : ℕ) : List ℕ := (p.reverse).take top_n

/-- Python `str.strip()` (no arguments): remove leading and trailing
whitespace, modelled on the character list of the string. -/
def pyStripChars (l : List Char) : List Char :=
  (((l.dropWhile Char.isWhitespace).reverse).dropWhile Char.isWhitespace).reverse

def pyStrip (s : String) : String := ⟨pyStripChars s.toList⟩

/-- Python `str.strip(CH)` removes every leading and trailing occurrence of
the character; here the trailing half for the quote character. -/
def stripTrailingQuotes (l : List Char) : List Char :=
  ((l.reverse).dropWhile (fun c => c == dquote)).reverse

def stripQuoteChars (l : List Char) : List Char :=
  stripTrailingQuotes (l.dropWhile (fun c => c == dquote))

/-- The quote normalization of the core loader, from
`line.strip().strip(QUOTE)` (line 95 of cicero_filtering.py). -/
def stripQuotesEnds (s : String) : String := ⟨stripQuoteChars s.toList⟩

/-- The endpoint normalization `str.replace(QUOTE, EMPTY)` of the edge loop
(lines 121-123): every quote character is removed. -/
def removeAllQuotes (s : String) : String := ⟨s.toList.filter (fun c => c != dquote)⟩

/-- Core peak loading (lines 93-96):
`{line.strip().strip(QUOTE) for line in f if line.strip()}`. -/
def loadCoreLines (lines : List String) : Finset String :=
  (((lines.map pyStrip).filter (fun l => l != "")).map stripQuotesEnds).toFinset

/-- peaks.txt loading (lines 159-160): `[line.strip() for line in f if
line.strip()]` — note: no quote stripping here, only whitespace. -/
def loadPeakLines (lines : List String) : List String :=
  (lines.map pyStrip).filter (fun l => l != "")

/-- The per-row endpoint normalization applied to every csv row before the
threshold and core tests. -/
def normEdge (e : Edge) : Edge := ⟨removeAllQuotes e.a, removeAllQuotes e.b, e.score⟩

/-- The failure exits of `cicero_filtering.main`: return codes 2-6 and the
`RuntimeError` for an empty row overlap, plus the uncaught exception of the
barcodes copy. -/
inductive RunError where
  | dirMissing
  | coreFileMissing
  | noCiceroFiles
  | peaksTxtMissing
  | noOverlap
  | matrixMissing
  | barcodesMissing
deriving DecidableEq, Repr

/-- The external state `cicero_filtering.main` reads: presence of the input
directories and files, and their parsed contents. -/
structure PipelineEnv where
  dirsExist : Bool
  coreLines : Option (List String)
  ciceroFiles : List (List Edge)
  peaksLines : Option (List String)
  matrixRows : Option (List (List ℤ))
  barcodesExist : Bool

/-- Names of the five files `main` writes into the output directory, in the
order it writes them. -/
def outSelectedFile : String := "selected_peaks.txt"

def outPeaksFile : String := "peaks.txt"

def outBedFile : String := "peaks.bed"

def outBarcodesFile : String := "barcodes.tsv"

def outMatrixFile : String := "matrix.mtx"

/-- The matrix-reduction stage of `main` (lines 151-199), entered after the
selected peak list has already been written: load peaks.txt, compute the kept
row positions (`RuntimeError` when empty), check matrix.mtx, reduce, write
peaks.txt and peaks.bed, copy barcodes.tsv, write matrix.mtx. -/
def reduceStage (selected : Finset String) (plines : List String)
    (matrixRows : Option (List (List ℤ))) (barcodesExist : Bool) :
    Except RunError (List (List ℤ)) × List String :=
  match keptPositions (loadPeakLines plines) selected with
  | [] => (Except.error RunError.noOverlap, [outSelectedFile])
  | i :: irest =>
    match matrixRows with
    | none => (Except.error RunError.matrixMissing, [outSelectedFile])
    | some mat =>
      if barcodesExist = false then
        (Except.error RunError.barcodesMissing, [outSelectedFile, outPeaksFile, outBedFile])
      else
        (Except.ok (matReduce mat (i :: irest)),
          [outSelectedFile, outPeaksFile, outBedFile, outBarcodesFile, outMatrixFile])

/-- The whole of `cicero_filtering.main` as a function from the external
state to the final result (or failure) together with the list of output
files written before returning, in write order. -/
def mainRun (env : PipelineEnv) (coacc_thresh : ℚ) :
    Except RunError (List (List ℤ)) × List String :=
  if env.dirsExist = false then (Except.error RunError.dirMissing, [])
  else
    match env.coreLines with
    | none => (Except.error RunError.coreFileMissing, [])
    | some clines =>
      if env.ciceroFiles.length = 0 then (Except.error RunError.noCiceroFiles, [])
      else
        let core := loadCoreLines clines
        let selected := expand core ((env.ciceroFiles.flatten).map normEdge) coacc_thresh
        match env.peaksLines with
        | none => (Except.error RunError.peaksTxtMissing, [outSelectedFile])
        | some plines => reduceStage selected plines env.matrixRows env.barcodesExist

/-- An external state where everything is present except peaks.txt. -/
def env9 : PipelineEnv :=
  { dirsExist := true
    coreLines := some ["chr1_100_200"]
    ciceroFiles := [[⟨"chr1_100_200", "chr3_1_2", 2⟩]]
    peaksLines := none
    matrixRows := some [[1, 0]]
    barcodesExist := true }

/-- An external state whose core peaks file holds only blank lines, so the
loaded core set is empty. -/
def env7 : PipelineEnv :=
  { dirsExist := true
    coreLines := some ["", "   "]
    ciceroFiles := [[⟨"chr5_1_2", "chr6_1_2", 9⟩]]
    peaksLines := some ["chr1_100_200"]
    matrixRows := some [[1, 0]]
    barcodesExist := true }

/-- The RegionID `chr1_100_200` wrapped in one pair of quote characters, as
it can appear in an external input file. -/
def quotedPeak : String := ⟨dquote :: ("chr1_100_200".toList ++ [dquote])⟩

/-- The BED rendering of one kept identifier (line 190 of
cicero_filtering.py): `pid.replace(USCORE, TAB)`; with a one-character
pattern the replacement is a character-by-character substitution. -/
def bedRenderChars (pid : List Char) : List Char :=
  pid.map (fun c => if c = uscore then tabChar else c)

/-- The tab-separated fields of an emitted record line. -/
def splitTabChars : List Char → List (List Char)
  | [] => [[]]
  | c :: cs =>
    match splitTabChars cs with
    | [] => [[c]]
    | f :: rest => if c = tabChar then [] :: f :: rest else (c :: f) :: rest

theorem mem_expandStep (core : Finset String) (t : ℚ) (sel : Finset String) (e : Edge)
    (x : String) :
    x ∈ expandStep core t sel e ↔
      x ∈ sel ∨ (e.score ≥ t ∧ (e.a ∈ core ∨ e.b ∈ core) ∧ (x = e.a ∨ x = e.b)) := by
  unfold expandStep
  by_cases h : e.score ≥ t ∧ (e.a ∈ core ∨ e.b ∈ core)
  · simp only [if_pos h, Finset.mem_insert]
    tauto
  · simp only [if_neg h]
    tauto

theorem mem_foldl_expandStep (core : Finset String) (t : ℚ) (edges : List Edge)
    (sel : Finset String) (x : String) :
    x ∈ edges.foldl (expandStep core t) sel ↔
      x ∈ sel ∨ ∃ e ∈ edges, e.score ≥ t ∧ (e.a ∈ core ∨ e.b ∈ core) ∧ (x = e.a ∨ x = e.b) := by
  induction edges generalizing sel with
  | nil => simp
  | cons e es ih =>
    simp only [List.foldl_cons, ih, mem_expandStep, List.mem_cons]
    aesop

theorem mem_expand (core : Finset String) (edges : List Edge) (t : ℚ) (x : String) :
    x ∈ expand core edges t ↔
      x ∈ core ∨ ∃ e ∈ edges, e.score ≥ t ∧ (e.a ∈ core ∨ e.b ∈ core) ∧ (x = e.a ∨ x = e.b) :=
  mem_foldl_expandStep core t edges core x

/-- Claim C2: the graph expansion is exactly one-hop.  A region is selected iff it is
in the original core set, or it is an endpoint of an edge whose score meets the
threshold and whose other test — membership of an endpoint in the ORIGINAL core
set, never in the growing selected set — succeeds.  The second conjunct is the
spec scenario: with core `{chr1_100_200}` and threshold `1/10`, the edge
`(chr5_1_2, chr6_1_2, 9/10)` is above threshold but touches no core region, so
only `chr1_100_200` and `chr3_1_2` are selected. -/
theorem graphExpander_one_hop :
    (∀ (core : Finset String) (edges : List Edge) (t : ℚ) (x : String),
      x ∈ expand core edges t ↔
        x ∈ core ∨ ∃ e ∈ edges, e.score ≥ t ∧ (e.a ∈ core ∨ e.b ∈ core) ∧ (x = e.a ∨ x = e.b))
    ∧ expand {"chr1_100_200"}
        [⟨"chr1_100_200", "chr3_1_2", 2/10⟩, ⟨"chr5_1_2", "chr6_1_2", 9/10⟩] (1/10)
        = {"chr1_100_200", "chr3_1_2"} := by
  constructor
  · exact mem_expand
  · ext x
    rw [mem_expand]
    simp
    constructor
    · rintro (h | h) <;> norm_num [h]
    · rintro (h | h) <;> norm_num [h]

/-- Claim C4: the selected set starts as the core set and only ever grows: each
single edge step is inflationary, and the final selected set is a superset of
the core set, for every core set, edge sequence and threshold. -/
theorem selectedRegionSet_superset_invariant :
    (∀ (core : Finset String) (t : ℚ) (sel : Finset String) (e : Edge),
      sel ⊆ expandStep core t sel e)
    ∧ (∀ (core : Finset String) (edges : List Edge) (t : ℚ),
      core ⊆ expand core edges t) := by
  constructor
  · intro core t sel e x hx
    rw [mem_expandStep]
    exact Or.inl hx
  · intro core edges t x hx
    rw [mem_expand]
    exact Or.inl hx

/-- Claim C5: raising the threshold can only shrink the selected set: for `t1 < t2`,
every region selected at threshold `t2` is also selected at threshold `t1`. -/
theorem graphExpander_threshold_monotone (core : Finset String) (edges : List Edge)
    (t1 t2 : ℚ) (h : t1 < t2) :
    expand core edges t2 ⊆ expand core edges t1 := by
  intro x hx
  rw [mem_expand] at hx ⊢
  rcases hx with hx | ⟨e, he, hs, hc, hxe⟩
  · exact Or.inl hx
  · exact Or.inr ⟨e, he, le_trans (le_of_lt h) hs, hc, hxe⟩

/-- Witness for C5 at a concrete input: thresholds `1/10 < 2/10` on the spec
scenario edge list. -/
theorem graphExpander_threshold_monotone_witness :
    expand {"chr1_100_200"}
        [⟨"chr1_100_200", "chr3_1_2", 2/10⟩, ⟨"chr5_1_2", "chr6_1_2", 9/10⟩] (2/10)
      ⊆ expand {"chr1_100_200"}
        [⟨"chr1_100_200", "chr3_1_2", 2/10⟩, ⟨"chr5_1_2", "chr6_1_2", 9/10⟩] (1/10) :=
  graphExpander_threshold_monotone _ _ _ _ (by norm_num)

theorem getElemBang_map {α β : Type} [Inhabited α] [Inhabited β] (f : α → β) (l : List α)
    (k : ℕ) (h : k < l.length) : (l.map f)[k]! = f l[k]! := by
  rw [getElem!_pos (l.map f) k (by simpa using h), getElem!_pos l k h,
    List.getElem_map]

theorem mem_keptPositions (all_peak_ids : List String) (selected : Finset String) (i : ℕ) :
    i ∈ keptPositions all_peak_ids selected ↔
      i < all_peak_ids.length ∧ all_peak_ids[i]! ∈ selected := by
  simp [keptPositions, List.mem_filter, List.mem_range]

/-- Claim C1: three-way consistency of the matrix reduction.  `keptPositions` is
exactly the set of positions of `all_peak_ids` whose identifier is in the
target set, in strictly increasing (original) order; the ordered identifier
list is the identifier at each kept position; and each row of the reduced
matrix is the original row at the corresponding kept position — so identifier
list, its BED rendering, and reduced matrix agree row-for-row. -/
theorem matrixReducer_three_way_consistency (all_peak_ids : List String)
    (selected : Finset String) (mat : List (List ℤ))
    (hmat : mat.length = all_peak_ids.length) :
    (∀ i : ℕ, i ∈ keptPositions all_peak_ids selected ↔
      i < all_peak_ids.length ∧ all_peak_ids[i]! ∈ selected)
    ∧ List.Sorted (· < ·) (keptPositions all_peak_ids selected)
    ∧ (corePeakIdsOrdered all_peak_ids (keptPositions all_peak_ids selected)).length
        = (keptPositions all_peak_ids selected).length
    ∧ (matReduce mat (keptPositions all_peak_ids selected)).length
        = (keptPositions all_peak_ids selected).length
    ∧ (∀ k : ℕ, k < (keptPositions all_peak_ids selected).length →
        (corePeakIdsOrdered all_peak_ids (keptPositions all_peak_ids selected))[k]!
          = all_peak_ids[(keptPositions all_peak_ids selected)[k]!]!)
    ∧ (∀ k : ℕ, k < (keptPositions all_peak_ids selected).length →
        (matReduce mat (keptPositions all_peak_ids selected))[k]!
          = mat[(keptPositions all_peak_ids selected)[k]!]!) := by
  refine ⟨mem_keptPositions all_peak_ids selected, ?_, ?_, ?_, ?_, ?_⟩
  · exact List.Pairwise.sublist (List.filter_sublist _) (List.pairwise_lt_range _)
  · exact List.length_map _ _
  · exact List.length_map _ _
  · intro k hk
    exact getElemBang_map _ _ k hk
  · intro k hk
    exact getElemBang_map _ _ k hk

/-- Witness for C1: the concrete scenario of the spec, with a 3×2 matrix. -/
theorem matrixReducer_three_way_consistency_witness :
    ([[(1:ℤ), 0], [2, 0], [3, 0]] : List (List ℤ)).length
        = (["chr1_100_200", "chr1_300_400", "chr2_10_20"] : List String).length
    ∧ keptPositions ["chr1_100_200", "chr1_300_400", "chr2_10_20"]
        {"chr1_300_400", "chr2_10_20"} = [1, 2]
    ∧ List.Sorted (· < ·) (keptPositions ["chr1_100_200", "chr1_300_400", "chr2_10_20"]
        {"chr1_300_400", "chr2_10_20"}) :=
  ⟨rfl, by decide,
    (matrixReducer_three_way_consistency ["chr1_100_200", "chr1_300_400", "chr2_10_20"]
      {"chr1_300_400", "chr2_10_20"} [[(1:ℤ), 0], [2, 0], [3, 0]] rfl).2.1⟩

/-- Claim C6: for a one-based anchor `p ≥ 1` and window `w ≥ 0`, the anchor is the
start for strand `+` and the end for strand `-`; the emitted interval is
`[max(0, p-1-w), p+w)`; its start is never negative, its length is at most
`2w+1`, and the length is exactly `2w+1` precisely when the left clamp does
not fire (`p - 1 - w ≥ 0`). -/
theorem intervalMapper_window_bounds (p w : ℤ) (hp : 1 ≤ p) (hw : 0 ≤ w) :
    (∀ s e : ℤ, tss_row s e "+" = s ∧ tss_row s e "-" = e)
    ∧ bedStart p w = max 0 (p - 1 - w)
    ∧ bedEnd p w = p + w
    ∧ 0 ≤ bedStart p w
    ∧ bedEnd p w - bedStart p w ≤ 2 * w + 1
    ∧ (bedEnd p w - bedStart p w = 2 * w + 1 ↔ 0 ≤ p - 1 - w) := by
  have anchor : ∀ s e : ℤ, tss_row s e "+" = s ∧ tss_row s e "-" = e := by
    intro s e
    exact ⟨if_pos rfl, if_neg (by decide)⟩
  rcases le_total (p - 1 - w) 0 with h | h
  · refine ⟨anchor, rfl, rfl, ?_, ?_, ?_⟩ <;>
      simp only [bedStart, bedEnd, max_eq_left h] <;> omega
  · refine ⟨anchor, rfl, rfl, ?_, ?_, ?_⟩ <;>
      simp only [bedStart, bedEnd, max_eq_right h] <;> omega

/-- Witness for C6 at anchor 100, window 10. -/
theorem intervalMapper_window_bounds_witness :
    (1:ℤ) ≤ 100 ∧ (0:ℤ) ≤ 10
    ∧ 0 ≤ bedStart 100 10
    ∧ bedEnd 100 10 - bedStart 100 10 ≤ 2 * 10 + 1 :=
  ⟨by decide, by decide,
    (intervalMapper_window_bounds 100 10 (by decide) (by decide)).2.2.2.1,
    (intervalMapper_window_bounds 100 10 (by decide) (by decide)).2.2.2.2.1⟩

theorem reduceStage_writes (selected : Finset String) (plines : List String)
    (mr : Option (List (List ℤ))) (bc : Bool) :
    ((∀ m, (reduceStage selected plines mr bc).1 ≠ Except.ok m) →
      (reduceStage selected plines mr bc).2 = [outSelectedFile]
        ∨ (reduceStage selected plines mr bc).2 = [outSelectedFile, outPeaksFile, outBedFile])
    ∧ (outMatrixFile ∈ (reduceStage selected plines mr bc).2 →
        ∃ m, (reduceStage selected plines mr bc).1 = Except.ok m) := by
  unfold reduceStage
  cases hk : keptPositions (loadPeakLines plines) selected with
  | nil => simp [outSelectedFile, outMatrixFile]
  | cons i irest =>
    cases mr with
    | none => simp [outSelectedFile, outMatrixFile]
    | some mat =>
      cases bc with
      | false => simp [outSelectedFile, outPeaksFile, outBedFile, outMatrixFile]
      | true =>
        constructor
        · intro h
          exact absurd rfl (h (matReduce mat (i :: irest)))
        · intro _
          exact ⟨matReduce mat (i :: irest), rfl⟩

/-- Amended claim C9: the run is staged, not all-or-nothing.  Whenever the run
fails, the files written so far are exactly one of: nothing (missing
directories, core file, or cicero files), only the selected-peak list
(failure at peaks.txt, the row overlap, or matrix.mtx), or the selected-peak
list plus peaks.txt and peaks.bed (failure while copying barcodes.tsv); the
reduced matrix.mtx itself is written only when the whole run succeeds. -/
theorem pipeline_write_stages (env : PipelineEnv) (t : ℚ) :
    ((∀ m, (mainRun env t).1 ≠ Except.ok m) →
      (mainRun env t).2 = [] ∨ (mainRun env t).2 = [outSelectedFile]
        ∨ (mainRun env t).2 = [outSelectedFile, outPeaksFile, outBedFile])
    ∧ (outMatrixFile ∈ (mainRun env t).2 → ∃ m, (mainRun env t).1 = Except.ok m) := by
  obtain ⟨d, cl, cf, pl, mr, bc⟩ := env
  unfold mainRun
  cases d with
  | false => simp
  | true =>
    cases cl with
    | none => simp
    | some clines =>
      by_cases hcf : cf.length = 0
      · simp [hcf]
      · simp only [hcf, if_false]
        cases pl with
        | none => simp [outSelectedFile, outMatrixFile]
        | some plines =>
          rcases reduceStage_writes
            (expand (loadCoreLines clines) ((cf.flatten).map normEdge) t) plines mr bc
            with ⟨h1, h2⟩
          constructor
          · intro h
            rcases h1 (by simpa using h) with hh | hh
            · right; left; simpa using hh
            · right; right; simpa using hh
          · intro h
            simpa using h2 (by simpa using h)

/-- Witness for the amended C9 at the concrete failing state `env9`. -/
theorem pipeline_write_stages_witness :
    (mainRun env9 1).2 = [] ∨ (mainRun env9 1).2 = [outSelectedFile]
      ∨ (mainRun env9 1).2 = [outSelectedFile, outPeaksFile, outBedFile] :=
  (pipeline_write_stages env9 1).1 (fun m hm => by
    rw [show (mainRun env9 1).1 = Except.error RunError.peaksTxtMissing from rfl] at hm
    exact Except.noConfusion hm)

/-- Counterexample to C9 as stated: with peaks.txt missing and every other
input present, the run fails, yet the selected-peak list has already been
written to the output directory — a failed run does leave a new partial
output. -/
theorem premature_write_counterexample :
    mainRun env9 1 = (Except.error RunError.peaksTxtMissing, [outSelectedFile])
    ∧ [outSelectedFile] ≠ ([] : List String) :=
  ⟨rfl, by decide⟩

/-- Amended claim C7: the script has no empty-core check at all.  With an empty
core set the membership mask can never hold, so the expansion silently
returns the empty set for every edge sequence and threshold, rather than
failing. -/
theorem emptyCore_expansion_silently_empty (edges : List Edge) (t : ℚ) :
    expand (∅ : Finset String) edges t = ∅ := by
  ext x
  rw [mem_expand]
  simp

/-- Counterexample to C7 as stated: with a core file of blank lines (empty
core set) the run does not fail at the expansion with an empty-source error;
the expansion returns the empty set, the (empty) selected-peak list is
written, and the failure surfaces only later as the no-overlap RuntimeError
of the reduction stage. -/
theorem emptyCore_no_failure_counterexample :
    expand (∅ : Finset String) [⟨"chr5_1_2", "chr6_1_2", 9⟩] 1 = ∅
    ∧ mainRun env7 1 = (Except.error RunError.noOverlap, [outSelectedFile]) := by
  constructor
  · ext x
    rw [mem_expand]
    simp
  · rfl

theorem dropWhile_append_of_exists (p : Char → Bool) (l r : List Char)
    (h : ∃ x ∈ l, p x = false) : (l ++ r).dropWhile p = l.dropWhile p ++ r := by
  induction l with
  | nil =>
    rcases h with ⟨x, hx, _⟩
    cases hx
  | cons a l ih =>
    by_cases ha : p a
    · rcases h with ⟨x, hx, hpx⟩
      rcases List.mem_cons.mp hx with rfl | hx
      · rw [ha] at hpx
        cases hpx
      · simp [List.dropWhile_cons, ha, ih ⟨x, hx, hpx⟩]
    · simp [List.dropWhile_cons, ha]

theorem stripTrailingQuotes_append_dquote (l : List Char) :
    stripTrailingQuotes (l ++ [dquote]) = stripTrailingQuotes l := by
  unfold stripTrailingQuotes
  rw [List.reverse_append]
  simp [List.dropWhile_cons]

theorem stripQuoteChars_all (l : List Char) (h : ∀ x ∈ l, x = dquote) :
    stripQuoteChars l = [] := by
  have h1 : l.dropWhile (fun c => c == dquote) = [] := by
    rw [List.dropWhile_eq_nil_iff]
    intro x hx
    simpa using h x hx
  rw [stripQuoteChars, h1]
  rfl

theorem stripQuoteChars_wrap (l : List Char) :
    stripQuoteChars (dquote :: (l ++ [dquote])) = stripQuoteChars l := by
  by_cases hall : ∀ x ∈ l, x = dquote
  · rw [stripQuoteChars_all l hall, stripQuoteChars_all]
    intro x hx
    rcases List.mem_cons.mp hx with rfl | hx
    · rfl
    · rcases List.mem_append.mp hx with hx2 | hx2
      · exact hall x hx2
      · simpa using hx2
  · push_neg at hall
    rcases hall with ⟨x0, hx0, hne⟩
    have hpx : (fun c => c == dquote) x0 = false := by simpa using hne
    have h1 : (dquote :: (l ++ [dquote])).dropWhile (fun c => c == dquote)
        = (l ++ [dquote]).dropWhile (fun c => c == dquote) := by
      simp [List.dropWhile_cons]
    rw [stripQuoteChars, h1,
      dropWhile_append_of_exists _ l [dquote] ⟨x0, hx0, hpx⟩,
      stripTrailingQuotes_append_dquote]
    rfl

/-- Amended claim C8: quote normalization is applied in the core-set loading
(surrounding quotes stripped) and to edge endpoints (all quote characters
removed) — so a quote-wrapped RegionID is the same entity there — but the
authoritative matrix identifier list is only whitespace-stripped, with
quotes left in place, so the row-order scan does NOT identify
quote-differing RegionIDs. -/
theorem quote_normalization_sites :
    (∀ l : List Char, stripQuoteChars (dquote :: (l ++ [dquote])) = stripQuoteChars l)
    ∧ (∀ l : List Char, (dquote :: (l ++ [dquote])).filter (fun c => c != dquote)
        = l.filter (fun c => c != dquote))
    ∧ stripQuotesEnds quotedPeak = "chr1_100_200"
    ∧ normEdge ⟨quotedPeak, "chr3_1_2", 2⟩ = ⟨"chr1_100_200", "chr3_1_2", 2⟩
    ∧ loadPeakLines [quotedPeak] = [quotedPeak]
    ∧ quotedPeak ≠ "chr1_100_200" := by
  refine ⟨stripQuoteChars_wrap, ?_, by decide, by decide, by decide, by decide⟩
  intro l
  simp

/-- Counterexample to C8 as stated: the selected set holds the normalized
`chr1_100_200`, the matrix identifier list holds its quote-wrapped form; the
row scan keeps no position, whereas with the quote stripping the claim
asserts it would keep position 0. -/
theorem peaks_scan_quotes_counterexample :
    keptPositions (loadPeakLines [quotedPeak]) {"chr1_100_200"} = []
    ∧ keptPositions ((loadPeakLines [quotedPeak]).map stripQuotesEnds) {"chr1_100_200"} = [0] := by
  constructor <;> decide

theorem splitTabChars_ne_nil (l : List Char) : splitTabChars l ≠ [] := by
  cases l with
  | nil => simp [splitTabChars]
  | cons c cs =>
    rcases h : splitTabChars cs with _ | ⟨f, rest⟩
    · simp [splitTabChars, h]
    · by_cases hc : c = tabChar <;> simp [splitTabChars, h, hc]

theorem splitTabChars_length (l : List Char) :
    (splitTabChars l).length = l.count tabChar + 1 := by
  induction l with
  | nil => simp [splitTabChars]
  | cons c cs ih =>
    rcases h : splitTabChars cs with _ | ⟨f, rest⟩
    · exact absurd h (splitTabChars_ne_nil cs)
    · rw [h] at ih
      by_cases hc : c = tabChar
      · simp only [splitTabChars, h, if_pos hc, List.length_cons, List.count_cons, hc]
        simp at ih ⊢
        omega
      · simp only [splitTabChars, h, if_neg hc, List.length_cons, List.count_cons]
        have hbc : (c == tabChar) = false := by simpa using hc
        simp [hbc] at ih ⊢
        omega

theorem bedRenderChars_count (pid : List Char) (h : tabChar ∉ pid) :
    (bedRenderChars pid).count tabChar = pid.count uscore := by
  induction pid with
  | nil => simp [bedRenderChars]
  | cons c cs ih =>
    have hc : c ≠ tabChar := fun hh => h (hh ▸ List.mem_cons_self c cs)
    have hcs : tabChar ∉ cs := fun hh => h (List.mem_cons_of_mem c hh)
    have ih2 := ih hcs
    simp only [bedRenderChars] at ih2
    by_cases hu : c = uscore
    · simp [bedRenderChars, hu, List.count_cons, ih2]
    · have h1 : (c == uscore) = false := by simpa using hu
      have h2 : (c == tabChar) = false := by simpa using hc
      simp [bedRenderChars, hu, List.count_cons, ih2, h1, h2]

/-- Claim C10: the BED rendering substitutes a tab for every underscore of the
identifier, so a rendered record has exactly (number of underscores + 1)
tab-separated fields: it is a three-field chromosome/start/end record
precisely when the identifier holds exactly two underscores, and an
identifier whose chromosome part itself holds underscores (more than two in
total) yields more than three fields. -/
theorem bed_rendering_field_count (pid : List Char) (h : tabChar ∉ pid) :
    (splitTabChars (bedRenderChars pid)).length = pid.count uscore + 1
    ∧ ((splitTabChars (bedRenderChars pid)).length = 3 ↔ pid.count uscore = 2)
    ∧ (2 < pid.count uscore → 3 < (splitTabChars (bedRenderChars pid)).length) := by
  have h1 := splitTabChars_length (bedRenderChars pid)
  have h2 := bedRenderChars_count pid h
  rw [h2] at h1
  exact ⟨h1, by omega, by omega⟩

/-- Witness for C10 at the identifier `chr1_KI270706v1_random_100_200`,
whose chromosome component holds underscores (four underscores in total, so
five emitted fields). -/
theorem bed_rendering_field_count_witness :
    tabChar ∉ "chr1_KI270706v1_random_100_200".toList
    ∧ (splitTabChars (bedRenderChars "chr1_KI270706v1_random_100_200".toList)).length
        = "chr1_KI270706v1_random_100_200".toList.count uscore + 1
    ∧ 3 < (splitTabChars (bedRenderChars "chr1_KI270706v1_random_100_200".toList)).length :=
  ⟨by decide, (bed_rendering_field_count "chr1_KI270706v1_random_100_200".toList (by decide)).1,
    (bed_rendering_field_count "chr1_KI270706v1_random_100_200".toList (by decide)).2.2
      (by decide)⟩

/-- Counterexample to claim C3 as stated: for the class weight row `[2, -2]`
the two features tie in `|weight|`, and both index orders `[0, 1]` and
`[1, 0]` satisfy the argsort contract.  Under `[0, 1]` — which is also what
numpy actually returns for this row, since its quicksort falls back to a
stable insertion sort on small arrays — the `[::-1]` reversal and `[:1]`
truncation select index 1, not the earliest index 0; under `[1, 0]` they
select index 0.  So the earliest-index tie preference is false on the
observed behaviour, and the code guarantees no deterministic tie order at
all. -/
theorem featureSelector_tie_counterexample :
    isArgsortOf (fun i => |([(2:ℚ), -2] : List ℚ)[i]!|) 2 [0, 1]
    ∧ selectTopOf [0, 1] 1 = [1]
    ∧ isArgsortOf (fun i => |([(2:ℚ), -2] : List ℚ)[i]!|) 2 [1, 0]
    ∧ selectTopOf [1, 0] 1 = [0]
    ∧ ([1] : List ℕ) ≠ [0] := by
  refine ⟨⟨?_, ?_⟩, ?_, ⟨?_, ?_⟩, ?_, ?_⟩ <;> decide

/-- Amended claim C3: for every class weight row and every index order
admissible for `np.argsort` under its documented contract, the selection
keeps top_n features by `|weight|` only in the weak sense — every selected
feature has `|weight|` at least that of every non-selected feature.  On ties
in `|weight|` the code gives no guarantee: the default quicksort leaves the
order of equal keys unspecified, so either tied feature may be the selected
one and selection is not guaranteed deterministic for equal magnitudes. -/
theorem featureSelector_top_by_weight (w : List ℚ) (top_n : ℕ) (p : List ℕ)
    (hp : isArgsortOf (fun i => |w[i]!|) w.length p) (i j : ℕ)
    (hi : i ∈ selectTopOf p top_n) (hjlen : j < w.length)
    (hj : j ∉ selectTopOf p top_n) :
    |w[j]!| ≤ |w[i]!| := by
  obtain ⟨hperm, hpair⟩ := hp
  have hPairRev : p.reverse.Pairwise (fun a b => |w[b]!| ≤ |w[a]!|) := by
    rw [List.pairwise_reverse]
    exact hpair
  have hjL : j ∈ p.reverse := by
    rw [List.mem_reverse, hperm.mem_iff, List.mem_range]
    exact hjlen
  have hsplit : p.reverse.take top_n ++ p.reverse.drop top_n = p.reverse :=
    List.take_append_drop top_n p.reverse
  have hjdrop : j ∈ p.reverse.drop top_n := by
    rcases List.mem_append.mp (by rw [hsplit]; exact hjL) with h | h
    · exact absurd h hj
    · exact h
  have hPair2 : (p.reverse.take top_n ++ p.reverse.drop top_n).Pairwise
      (fun a b => |w[b]!| ≤ |w[a]!|) := by
    rw [hsplit]
    exact hPairRev
  exact (List.pairwise_append.mp hPair2).2.2 i hi j hjdrop

/-- Witness for the amended C3 at the tie row `[2, -2]` with `top_n = 1` and
the admissible (and observed) index order `[0, 1]`: index 1 is selected,
index 0 is not, and the selected feature's `|weight|` is at least the
non-selected one's. -/
theorem featureSelector_top_by_weight_witness :
    isArgsortOf (fun i => |([(2:ℚ), -2] : List ℚ)[i]!|) 2 [0, 1]
    ∧ 1 ∈ selectTopOf [0, 1] 1
    ∧ 0 < ([(2:ℚ), -2] : List ℚ).length
    ∧ 0 ∉ selectTopOf [0, 1] 1
    ∧ |([(2:ℚ), -2] : List ℚ)[0]!| ≤ |([(2:ℚ), -2] : List ℚ)[1]!| :=
  ⟨⟨by decide, by decide⟩, by decide, by decide, by decide,
    featureSelector_top_by_weight [2, -2] 1 [0, 1] ⟨by decide, by decide⟩ 1 0
      (by decide) (by decide) (by decide)⟩
